import Mathlib

/-!
Verification of the Availability State Tracker of the padel-notifier
repository (`src/court_checker.py`): the persisted slot-state store, the
known-dates registry, and the occupied-to-free change detection in
`check_availability` / `check_all_dates`.

The Python code is shallowly embedded as executable Lean functions:

* Python `dict`s (which preserve insertion order) are modeled as
  association lists (`List (key × value)`) with an in-place-replacing
  insert (`insertA`) and first-match lookup (`lookupA`), mirroring
  `d[k] = v` and `k in d` / `d[k]`.
* Python strings are Lean `String`s; the string operations the code uses
  (`str.split('|')`, `'|' in k`, lexicographic `>=` comparison, `date[:7]`,
  substring test `'libre' in cls`) are defined below on the underlying
  character lists, matching Python's per-code-point semantics.
* The two JSON files are modeled by their parse result: a file is
  `Option FileContent`, `none` when the file does not exist; a present file
  either holds a well-formed mapping (`valid`), only whitespace (`empty`),
  or bytes that `json.loads` rejects (`garbage`).  `json.dump` writes a
  `valid` value, `json.load` returns the mapping of a `valid` value and
  raises on `empty`/`garbage`, which the code catches.
* File-writing failures are made explicit by a `SaveOutcome` parameter
  that selects the point of `_save_states` / `_save_known_dates` at which
  an exception is raised (`os.replace` of the primary to the backup path,
  the `json.dump` write, or the final `os.remove` of the backup);
  `success` is the run without failure.  Each failing branch applies the
  code's `except` handler (restore the backup over the primary if the
  backup file exists).
* The HTML scraping (`requests`, `BeautifulSoup`, `_login`,
  `_extract_date`, `_get_planning_urls`) is the external Site Adapter.
  Its result is an input of the embedded functions: a parsed planning
  table is a list of rows, each with an optional (stripped) time-header
  text and the CSS class lists of its court cells.  The input value
  `none` stands for an exception raised by any of those steps (network
  error, missing table, unparsable date), which the code catches in the
  surrounding `try`.
-/

/-- Lexicographic less-or-equal on character lists, comparing code points:
Python's string `<=` (and, flipped, `>=`). -/
def listLexLe : List Char → List Char → Bool
  | [], _ => true
  | _ :: _, [] => false
  | a :: as, b :: bs => if a = b then listLexLe as bs else decide (a < b)

/-- Python `a <= b` on strings. -/
def strLe (a b : String) : Bool := listLexLe a.data b.data

/-- Split a character list at every occurrence of `sep`:
Python `str.split(sep)` for a one-character separator (always returns at
least one piece; adjacent separators give empty pieces). -/
def splitChar (sep : Char) (l : List Char) : List (List Char) :=
  l.foldr
    (fun c acc =>
      match acc with
      | h :: t => if c = sep then [] :: h :: t else (c :: h) :: t
      | [] => [[]])
    [[]]

/-- Python `k.split(sep)` (one-character separator). -/
def strSplit (k : String) (sep : Char) : List String :=
  (splitChar sep k.data).map String.mk

/-- `k.split('|')[1]` as used on state keys of the form `"HH:MM|YYYY-MM-DD"`
(the code indexes only after checking `'|' in k`, so the index exists
there; out of that range we default to `""`). -/
def dateComp (k : String) : String := (strSplit k '|').getD 1 ""

/-- `state_key.split('|')[0]`: the time-label component of a state key. -/
def timeComp (k : String) : String := (strSplit k '|').getD 0 ""

/-- `date[:7]`: the `"YYYY-MM"` month prefix of an ISO date string. -/
def monthOf (d : String) : String := String.mk (d.data.take 7)

/-- Python substring containment `needle in hay`. -/
def hasSubstring (needle hay : List Char) : Bool :=
  match hay with
  | [] => needle.isEmpty
  | _ :: t => needle.isPrefixOf hay || hasSubstring needle t

/-- First-match association-list lookup: Python `d[k]` / `d.get(k)`. -/
def lookupA {α : Type} (k : String) : List (String × α) → Option α
  | [] => none
  | (k', v) :: rest => if k' = k then some v else lookupA k rest

/-- In-place-replacing association-list insert: Python `d[k] = v`
(replaces the value at an existing key, keeping its position; otherwise
appends the binding at the end, as Python dicts preserve insertion
order). -/
def insertA {α : Type} (k : String) (v : α) : List (String × α) → List (String × α)
  | [] => [(k, v)]
  | (k', v') :: rest => if k' = k then (k, v) :: rest else (k', v') :: insertA k v rest

/-- Per-court status mapping of one time row: `courtId → "libre" | "occupé"`. -/
abbrev CourtMap := List (String × String)

/-- The persisted slot-state mapping: `"HH:MM|YYYY-MM-DD" → CourtMap`
(`Dict[str, Dict[str, str]]` in the code). -/
abbrev StatesMap := List (String × CourtMap)

/-- The known-dates file mapping: `"YYYY-MM" → ["YYYY-MM-DD", ...]`. -/
abbrev DatesMap := List (String × List String)

/-- Parse-level content of `court_states.json`: a well-formed mapping,
a whitespace-only file, or bytes `json.loads` rejects. -/
inductive StateFileContent : Type
  | valid (m : StatesMap)
  | empty
  | garbage
deriving DecidableEq

/-- Parse-level content of `known_dates.json`. -/
inductive DatesFileContent : Type
  | valid (m : DatesMap)
  | empty
  | garbage
deriving DecidableEq

/-- The state of one `CourtChecker` instance: the two backing files (and
their `.bak` backup paths), plus the in-memory `self.previous_states`
and `self.known_dates`.  A file is `none` when it does not exist. -/
structure Checker : Type where
  state_file : Option StateFileContent
  state_backup : Option StateFileContent
  dates_file : Option DatesFileContent
  dates_backup : Option DatesFileContent
  previous_states : StatesMap
  known_dates : List String
deriving DecidableEq

/-- Point at which a file-saving operation raises, `success` meaning no
failure.  `failReplace`: the `os.replace` moving the primary file to the
backup path raises (the move, being atomic, has not taken effect);
`failWrite`: `open`/`json.dump` raises mid-write, leaving a half-written
primary file; `failRemove`: the final `os.remove` of the backup raises.
A failure point whose operation is not executed (its `os.path.exists`
guard is false) behaves like `success` from that point on. -/
inductive SaveOutcome : Type
  | success
  | failReplace
  | failWrite
  | failRemove
deriving DecidableEq

/-- `_load_states`: read `court_states.json`; a missing file or any
exception (empty or unparsable content) yields `{}`. -/
def _load_states (file : Option StateFileContent) : StatesMap :=
  match file with
  | none => []
  | some (.valid m) => m
  | some .empty => []
  | some .garbage => []

/-- `_load_known_dates`: read `known_dates.json`; a missing file, empty
content, or any exception yields `{}`. -/
def _load_known_dates (file : Option DatesFileContent) : DatesMap :=
  match file with
  | none => []
  | some (.valid m) => m
  | some .empty => []
  | some .garbage => []

/-- Lines 334-337 of `check_all_dates` (also 183-186): rebuild
`self.known_dates` as a set from the per-month lists of the dates file.
The Python `set` is modeled as a duplicate-free list. -/
def knownOf (m : DatesMap) : List String :=
  ((m.map Prod.snd).flatten).dedup

/-- `_ensure_files_exist`: create each missing file as `{}`; a present
file whose non-empty content fails `json.loads` is rewritten as `{}`;
an empty or well-formed file is left untouched. -/
def _ensure_files_exist (st : Checker) : Checker :=
  let sf : Option StateFileContent :=
    match st.state_file with
    | none => some (.valid [])
    | some (.valid m) => some (.valid m)
    | some .empty => some .empty
    | some .garbage => some (.valid [])
  let df : Option DatesFileContent :=
    match st.dates_file with
    | none => some (.valid [])
    | some (.valid m) => some (.valid m)
    | some .empty => some .empty
    | some .garbage => some (.valid [])
  { st with state_file := sf, dates_file := df }

/-- The `except` handler of `_save_states` (lines 158-162): if the backup
file exists, move it back over the primary path. -/
def restoreStateBackup (st : Checker) : Checker :=
  match st.state_backup with
  | some b => { st with state_file := some b, state_backup := none }
  | none => st

/-- The `except` handler of `_save_known_dates` (lines 227-231). -/
def restoreDatesBackup (st : Checker) : Checker :=
  match st.dates_backup with
  | some b => { st with dates_file := some b, dates_backup := none }
  | none => st

/-- `_save_states states state_key`: merge the entry into
`self.previous_states`, drop keys without `'|'`, drop keys whose date
component (`k.split('|')[1]`) is before `today`, then write the result
with the backup-before-write discipline.  `fp` selects the injected
failure point (see `SaveOutcome`). -/
def _save_states (st : Checker) (states : CourtMap) (state_key today : String)
    (fp : SaveOutcome) : Checker :=
  let p1 := insertA state_key states st.previous_states
  let p2 := p1.filter fun kv => decide ('|' ∈ kv.1.data)
  let p3 := p2.filter fun kv => strLe today (dateComp kv.1)
  let st := { st with previous_states := p3 }
  match fp with
  | .success => { st with state_file := some (.valid p3), state_backup := none }
  | .failReplace =>
    match st.state_file with
    | some _ => restoreStateBackup st
    | none => { st with state_file := some (.valid p3), state_backup := none }
  | .failWrite =>
    let st' :=
      match st.state_file with
      | some c => { st with state_file := some StateFileContent.garbage, state_backup := some c }
      | none => { st with state_file := some StateFileContent.garbage }
    restoreStateBackup st'
  | .failRemove =>
    let st' :=
      match st.state_file with
      | some c => { st with state_file := some (.valid p3), state_backup := some c }
      | none => { st with state_file := some (.valid p3) }
    match st'.state_backup with
    | some _ => restoreStateBackup st'
    | none => st'

/-- Python `set.update`: add the given dates to the known set, modeled as
appending, deduplicated, the dates not already present. -/
def setInsertAll (known dates : List String) : List String :=
  known ++ dates.dedup.filter fun d => decide (d ∉ known)

/-- Insert a date into an ascending list (helper of `sortDates`). -/
def insSorted (d : String) : List String → List String
  | [] => [d]
  | x :: xs => if strLe d x then d :: x :: xs else x :: insSorted d xs

/-- Python `list.sort()` on date strings (stable insertion sort,
lexicographic by code point, identical on string lists). -/
def sortDates (l : List String) : List String := l.foldr insSorted []

/-- Lines 204-209 of `_save_known_dates`: bucket a date into the entry of
its `date[:7]` month, creating the bucket at the end if absent. -/
def addToMonth (acc : DatesMap) (d : String) : DatesMap :=
  match lookupA (monthOf d) acc with
  | some ds => insertA (monthOf d) (ds ++ [d]) acc
  | none => acc ++ [(monthOf d, [d])]

/-- Lines 203-213 of `_save_known_dates`: group all known dates by month
and sort each month's list ascending. -/
def groupByMonth (dates : List String) : DatesMap :=
  (dates.foldl addToMonth []).map fun mv => (mv.1, sortDates mv.2)

/-- `_save_known_dates dates`: update `self.known_dates` with the given
dates, group the whole set by month with sorted month lists, and write
the result with the backup-before-write discipline. -/
def _save_known_dates (st : Checker) (dates : List String) (fp : SaveOutcome) : Checker :=
  let known := setInsertAll st.known_dates dates
  let dbm := groupByMonth known
  let st := { st with known_dates := known }
  match fp with
  | .success => { st with dates_file := some (.valid dbm), dates_backup := none }
  | .failReplace =>
    match st.dates_file with
    | some _ => restoreDatesBackup st
    | none => { st with dates_file := some (.valid dbm), dates_backup := none }
  | .failWrite =>
    let st' :=
      match st.dates_file with
      | some c => { st with dates_file := some DatesFileContent.garbage, dates_backup := some c }
      | none => { st with dates_file := some DatesFileContent.garbage }
    restoreDatesBackup st'
  | .failRemove =>
    let st' :=
      match st.dates_file with
      | some c => { st with dates_file := some (.valid dbm), dates_backup := some c }
      | none => { st with dates_file := some (.valid dbm) }
    match st'.dates_backup with
    | some _ => restoreDatesBackup st'
    | none => st'

/-- One `<tr>` of the parsed planning table: the stripped text of its
`<th>` time cell if present, and the CSS class list of each `<td>` court
cell in order. -/
structure PRow : Type where
  timeCell : Option String
  courts : List (List String)
deriving DecidableEq

/-- The parsed planning table of one page. -/
abbrev Page := List PRow

/-- `_is_court_available`: a court cell is free iff some CSS class of the
cell contains `"libre"` as a substring. -/
def _is_court_available (court_classes : List String) : Bool :=
  court_classes.any fun cls => hasSubstring "libre".data cls.data

/-- `enumerate(courts, 1)` loop of `_find_available_slots_for_time`:
name the `i`-th cell `"Padel i"` and record `"libre"`/`"occupé"`. -/
def _find_courts (i : Nat) : List (List String) → List String × CourtMap
  | [] => ([], [])
  | cls :: rest =>
    let court_name := "Padel " ++ toString i
    let result := _find_courts (i + 1) rest
    if _is_court_available cls then
      (court_name :: result.1, (court_name, "libre") :: result.2)
    else
      (result.1, (court_name, "occupé") :: result.2)

/-- `_find_available_slots_for_time`: free-court list and full status
mapping of one time row. -/
def _find_available_slots_for_time (courts : List (List String)) : List String × CourtMap :=
  _find_courts 1 courts

/-- One row of the first pass of `check_availability` (lines 523-535):
rows without a time header, or whose header is empty or `"Horaires"`, are
skipped; otherwise the row's status mapping is stored under
`"time|planning_date"`. -/
def webStep (planning_date : String) (web_states : StatesMap) (row : PRow) : StatesMap :=
  match row.timeCell with
  | none => web_states
  | some current_time =>
    if current_time = "" ∨ current_time = "Horaires" then web_states
    else
      insertA (current_time ++ "|" ++ planning_date)
        (_find_available_slots_for_time row.courts).2 web_states

/-- First pass of `check_availability` (lines 519-535): collect
`web_states`, a mapping `"time|planning_date" → CourtMap` over the rows
with a non-empty time header other than `"Horaires"`. -/
def buildWebStates (rows : Page) (planning_date : String) : StatesMap :=
  rows.foldl (webStep planning_date) []

/-- A freed-slot event `(time, court, date)` as returned by
`check_availability`. -/
abbrev Evt := String × String × String

/-- Lines 541-556 of `check_availability`: the events one
`(state_key, web_state)` group contributes.  Only the group whose time
component equals `target_time` is inspected; a court is reported iff its
web status is `"libre"` and the stored previous mapping for the key
records it as `"occupé"`. -/
def groupEvents (previous_states : StatesMap) (target_time planning_date : String)
    (state_key : String) (web_state : CourtMap) : List Evt :=
  let current_time := timeComp state_key
  if current_time = target_time then
    match lookupA state_key previous_states with
    | some prev =>
      web_state.foldl
        (fun new_slots cw =>
          if cw.2 = "libre" then
            if lookupA cw.1 prev = some "occupé" then
              new_slots ++ [(target_time, cw.1, planning_date)]
            else new_slots
          else new_slots)
        []
    | none => []
  else []

/-- One iteration of the second pass of `check_availability`
(lines 538-562): compute the group's events, then store the full new
group under its key and save (lines 559-562 first force the key to exist,
then overwrite it; `_save_states` runs without injected failure since no
exception escapes it). -/
def processKey (target_time planning_date today : String)
    (acc : List Evt × Checker) (kv : String × CourtMap) : List Evt × Checker :=
  let new_slots := acc.1
  let st := acc.2
  let evts := groupEvents st.previous_states target_time planning_date kv.1 kv.2
  let st :=
    if (lookupA kv.1 st.previous_states).isSome then st
    else { st with previous_states := insertA kv.1 [] st.previous_states }
  let st := { st with previous_states := insertA kv.1 kv.2 st.previous_states }
  (new_slots ++ evts, _save_states st kv.2 kv.1 today .success)

/-- `check_availability target_time planning_date`: reload
`self.previous_states` from the file, then process the fetched planning
table.  `fetch = none` stands for any exception raised between the reload
and the update loop (network error, HTTP error status, missing planning
table, unparsable date), all caught at lines 571-573 with `[]` returned
and no file touched.  The caller supplies `planning_date`, as
`check_all_dates` always does. -/
def check_availability (fetch : Option Page) (target_time planning_date today : String)
    (st : Checker) : List Evt × Checker :=
  let st := { st with previous_states := _load_states st.state_file }
  match fetch with
  | none => ([], st)
  | some rows =>
    let web_states := buildWebStates rows planning_date
    web_states.foldl (processKey target_time planning_date today) ([], st)

/-- One target time of one planning page inside `check_all_dates`
(lines 364-368 and 393-397): run `check_availability` and extend the
collected freed slots when any were found. -/
def timeStep (page : Page) (date today : String) (a : List Evt × Checker)
    (target_time : String) : List Evt × Checker :=
  let r := check_availability (some page) target_time date today a.2
  (if r.1.isEmpty then a.1 else a.1 ++ r.1, r.2)

/-- One dated planning page inside `check_all_dates` (lines 350-397):
record the date as newly found when it is not among the known dates, then
check every target time's availability on that page. -/
def dateStep (target_times : List String) (today : String)
    (acc : List Evt × List String × Checker) (dp : String × Page) :
    List Evt × List String × Checker :=
  let nds := if dp.1 ∈ acc.2.2.known_dates then acc.2.1 else acc.2.1 ++ [dp.1]
  let r := target_times.foldl (timeStep dp.2 dp.1 today) ([], acc.2.2)
  (if r.1.isEmpty then acc.1 else acc.1 ++ r.1, nds, r.2)

/-- `check_all_dates target_times`: reload the known dates, then walk the
dated planning pages the Site Adapter found — today's page first, then
each further planning URL's `(date, page)`, today's date not repeated —
recording unknown dates as new and checking every target time's
availability on each page; finally register all found dates.
`fetch = none` stands for an exception raised by the initial page
retrieval or parse, caught at lines 407-409 with `([], [])` returned and
no file touched. -/
def check_all_dates (fetch : Option (List (String × Page))) (target_times : List String)
    (today : String) (st : Checker) : (List Evt × List String) × Checker :=
  let st := { st with known_dates := knownOf (_load_known_dates st.dates_file) }
  match fetch with
  | none => (([], []), st)
  | some datedPages =>
    let r := datedPages.foldl (dateStep target_times today) ([], [], st)
    let all_dates := (datedPages.map Prod.fst).dedup
    let st :=
      if all_dates.isEmpty then r.2.2
      else
        let st := _save_known_dates r.2.2 all_dates .success
        { st with known_dates := setInsertAll st.known_dates all_dates }
    ((r.1, r.2.1), st)

/-! ### Association-list lemmas -/

theorem insertA_cons_eq {α : Type} (k : String) (v v₀ : α) (tl : List (String × α)) :
    insertA k v ((k, v₀) :: tl) = (k, v) :: tl := by
  simp [insertA]

theorem insertA_cons_ne {α : Type} {k₀ k : String} (h : k₀ ≠ k) (v v₀ : α)
    (tl : List (String × α)) :
    insertA k v ((k₀, v₀) :: tl) = (k₀, v₀) :: insertA k v tl := by
  simp [insertA, h]

theorem lookupA_cons_eq {α : Type} (k : String) (v : α) (tl : List (String × α)) :
    lookupA k ((k, v) :: tl) = some v := by
  simp [lookupA]

theorem lookupA_cons_ne {α : Type} {k₀ k : String} (h : k₀ ≠ k) (v : α)
    (tl : List (String × α)) : lookupA k ((k₀, v) :: tl) = lookupA k tl := by
  simp [lookupA, h]

theorem lookupA_insertA_self {α : Type} (k : String) (v : α) (m : List (String × α)) :
    lookupA k (insertA k v m) = some v := by
  induction m with
  | nil => simp [insertA, lookupA]
  | cons hd tl ih =>
    by_cases h : hd.1 = k
    · simp [insertA, h, lookupA]
    · cases hd
      simp_all [insertA, h, lookupA]

theorem lookupA_insertA_ne {α : Type} {k k' : String} (h : k' ≠ k) (v : α)
    (m : List (String × α)) : lookupA k' (insertA k v m) = lookupA k' m := by
  induction m with
  | nil =>
    have hne : k ≠ k' := fun he => h he.symm
    simp [insertA, lookupA, hne]
  | cons hd tl ih =>
    cases hd with
    | mk k₀ v₀ =>
      by_cases h0 : k₀ = k
      · subst h0
        have hne : k₀ ≠ k' := fun he => h he.symm
        simp [insertA, lookupA, hne]
      · simp only [insertA, if_neg h0]
        by_cases h1 : k₀ = k'
        · simp [lookupA, h1]
        · simp [lookupA, h1, ih]

theorem insertA_insertA_self {α : Type} (k : String) (v w : α) (m : List (String × α)) :
    insertA k v (insertA k w m) = insertA k v m := by
  induction m with
  | nil => simp [insertA]
  | cons hd tl ih =>
    cases hd with
    | mk k₀ v₀ =>
      by_cases h0 : k₀ = k
      · simp [insertA, h0]
      · simp [insertA, h0, ih]

theorem lookupA_filterKey {α : Type} (p : String → Bool) (k : String)
    (m : List (String × α)) :
    lookupA k (m.filter fun kv => p kv.1) = if p k then lookupA k m else none := by
  induction m with
  | nil => simp [lookupA]
  | cons hd tl ih =>
    cases hd with
    | mk k₀ v₀ =>
      by_cases h0 : k₀ = k
      · subst h0
        by_cases hp : p k₀ <;> simp [List.filter, lookupA, hp, ih]
      · by_cases hp : p k₀ <;> simp [List.filter, lookupA, hp, h0, ih]

theorem mem_keys_insertA {α : Type} (a k : String) (v : α) (m : List (String × α)) :
    a ∈ (insertA k v m).map Prod.fst ↔ a = k ∨ a ∈ m.map Prod.fst := by
  induction m with
  | nil => simp [insertA]
  | cons hd tl ih =>
    cases hd with
    | mk k₀ v₀ =>
      by_cases h0 : k₀ = k
      · subst h0
        rw [insertA_cons_eq]
        simp only [List.map_cons, List.mem_cons]
        tauto
      · rw [insertA_cons_ne h0]
        simp only [List.map_cons, List.mem_cons, ih]
        tauto

theorem keys_insertA_nodup {α : Type} (k : String) (v : α) (m : List (String × α))
    (h : (m.map Prod.fst).Nodup) : ((insertA k v m).map Prod.fst).Nodup := by
  induction m with
  | nil => simp [insertA]
  | cons hd tl ih =>
    cases hd with
    | mk k₀ v₀ =>
      simp only [List.map_cons, List.nodup_cons] at h
      by_cases h0 : k₀ = k
      · subst h0
        rw [insertA_cons_eq]
        simp only [List.map_cons, List.nodup_cons]
        exact h
      · rw [insertA_cons_ne h0]
        simp only [List.map_cons, List.nodup_cons]
        refine ⟨?_, ih h.2⟩
        intro hmem
        rcases (mem_keys_insertA k₀ k v tl).mp hmem with h1 | h1
        · exact h0 h1
        · exact h.1 h1

theorem mem_insertA {α : Type} {kv : String × α} {k : String} {v : α}
    {m : List (String × α)} (h : kv ∈ insertA k v m) : kv = (k, v) ∨ kv ∈ m := by
  induction m with
  | nil => simpa [insertA] using h
  | cons hd tl ih =>
    cases hd with
    | mk k₀ v₀ =>
      by_cases h0 : k₀ = k
      · subst h0
        rw [insertA_cons_eq] at h
        rcases List.mem_cons.mp h with h | h
        · exact Or.inl h
        · exact Or.inr (List.mem_cons_of_mem _ h)
      · rw [insertA_cons_ne h0] at h
        rcases List.mem_cons.mp h with h | h
        · exact Or.inr (h ▸ List.mem_cons_self _ _)
        · rcases ih h with h' | h'
          · exact Or.inl h'
          · exact Or.inr (List.mem_cons_of_mem _ h')

theorem lookupA_eq_some_mem {α : Type} {k : String} {v : α} {m : List (String × α)}
    (h : lookupA k m = some v) : (k, v) ∈ m := by
  induction m with
  | nil => simp [lookupA] at h
  | cons hd tl ih =>
    cases hd with
    | mk k₀ v₀ =>
      by_cases h0 : k₀ = k
      · subst h0
        rw [lookupA_cons_eq] at h
        obtain rfl : v₀ = v := Option.some.inj h
        exact List.mem_cons_self _ _
      · rw [lookupA_cons_ne h0] at h
        exact List.mem_cons_of_mem _ (ih h)

theorem mem_lookupA_of_nodup {α : Type} {kv : String × α} {m : List (String × α)}
    (hm : (m.map Prod.fst).Nodup) (h : kv ∈ m) : lookupA kv.1 m = some kv.2 := by
  induction m with
  | nil => simp at h
  | cons hd tl ih =>
    cases hd with
    | mk k₀ v₀ =>
      simp only [List.map_cons, List.nodup_cons] at hm
      rcases List.mem_cons.mp h with h | h
      · subst h
        simp [lookupA]
      · have hne : k₀ ≠ kv.1 := by
          intro he
          exact hm.1 (he ▸ List.mem_map_of_mem Prod.fst h)
        simp only [lookupA, hne, if_false]
        exact ih hm.2 h

/-! ### Splitting and key-shape lemmas -/

theorem splitChar_cons (sep c : Char) (l : List Char) :
    splitChar sep (c :: l) =
      match splitChar sep l with
      | h :: t => if c = sep then [] :: h :: t else (c :: h) :: t
      | [] => [[]] := rfl

theorem splitChar_ne_nil (sep : Char) (l : List Char) : splitChar sep l ≠ [] := by
  cases l with
  | nil => simp [splitChar]
  | cons c t =>
    rw [splitChar_cons]
    cases h : splitChar sep t with
    | nil => simp
    | cons h1 t1 => by_cases hc : c = sep <;> simp [hc]

theorem splitChar_sep_cons (sep : Char) (bs : List Char) :
    splitChar sep (sep :: bs) = [] :: splitChar sep bs := by
  rw [splitChar_cons]
  cases h : splitChar sep bs with
  | nil => exact absurd h (splitChar_ne_nil sep bs)
  | cons h1 t1 => simp [h]

theorem splitChar_nosep (sep : Char) (l : List Char) (h : sep ∉ l) :
    splitChar sep l = [l] := by
  induction l with
  | nil => rfl
  | cons c t ih =>
    have hc : c ≠ sep := fun he => h (he ▸ List.mem_cons_self c t)
    have ht : sep ∉ t := fun hm => h (List.mem_cons_of_mem _ hm)
    rw [splitChar_cons, ih ht]
    simp [hc]

theorem splitChar_append (sep : Char) (as bs : List Char) (h : sep ∉ as) :
    splitChar sep (as ++ sep :: bs) = as :: splitChar sep bs := by
  induction as with
  | nil => simpa using splitChar_sep_cons sep bs
  | cons a t ih =>
    have ha : a ≠ sep := fun he => h (he ▸ List.mem_cons_self a t)
    have ht : sep ∉ t := fun hm => h (List.mem_cons_of_mem _ hm)
    rw [List.cons_append, splitChar_cons, ih ht]
    simp [ha]

theorem mk_data (s : String) : String.mk s.data = s := rfl

theorem key_data (t d : String) : (t ++ "|" ++ d).data = t.data ++ '|' :: d.data := by
  rw [String.data_append, String.data_append]
  simp [show ("|" : String).data = ['|'] from rfl]

theorem strSplit_key (t d : String) (ht : '|' ∉ t.data) (hd : '|' ∉ d.data) :
    strSplit (t ++ "|" ++ d) '|' = [t, d] := by
  unfold strSplit
  rw [key_data, splitChar_append _ _ _ ht, splitChar_nosep _ _ hd]
  simp [mk_data]

theorem timeComp_key (t d : String) (ht : '|' ∉ t.data) (hd : '|' ∉ d.data) :
    timeComp (t ++ "|" ++ d) = t := by
  simp [timeComp, strSplit_key t d ht hd]

theorem dateComp_key (t d : String) (ht : '|' ∉ t.data) (hd : '|' ∉ d.data) :
    dateComp (t ++ "|" ++ d) = d := by
  simp [dateComp, strSplit_key t d ht hd]

theorem bar_mem_key (t d : String) : '|' ∈ (t ++ "|" ++ d).data := by
  rw [key_data]
  exact List.mem_append_right _ (List.mem_cons_self _ _)

/-! ### Claim theorems: the persisted state store -/

/-- C1: if an exception is raised at any point of the file-writing part
of `_save_states` (while a store file existed before the save, with no
stale backup file lying around, as every completed save call guarantees),
the `except` handler leaves the primary file exactly as it was, so the
store is never half-written or missing and a subsequent `_load_states`
returns exactly the mapping persisted before the failed save. -/
theorem save_states_crash_safe (st : Checker) (states : CourtMap) (state_key today : String)
    (fp : SaveOutcome) (c : StateFileContent)
    (hp : st.state_file = some c) (hb : st.state_backup = none)
    (hfp : fp ≠ SaveOutcome.success) :
    (_save_states st states state_key today fp).state_file = some c ∧
      _load_states (_save_states st states state_key today fp).state_file
        = _load_states st.state_file := by
  cases fp with
  | success => exact absurd rfl hfp
  | failReplace => simp [_save_states, hp, hb, restoreStateBackup]
  | failWrite => simp [_save_states, hp, hb, restoreStateBackup]
  | failRemove => simp [_save_states, hp, hb, restoreStateBackup]

theorem save_states_crash_safe_witness :
    (_save_states ⟨some (.valid [("11H00|2025-01-06", [("Padel 1", "occupé")])]), none,
        none, none, [], []⟩ [("Padel 1", "libre")] "11H00|2025-01-06" "2025-01-01"
        .failWrite).state_file
      = some (.valid [("11H00|2025-01-06", [("Padel 1", "occupé")])]) ∧
    _load_states (_save_states ⟨some (.valid [("11H00|2025-01-06", [("Padel 1", "occupé")])]),
        none, none, none, [], []⟩ [("Padel 1", "libre")] "11H00|2025-01-06" "2025-01-01"
        .failWrite).state_file
      = _load_states (Checker.mk (some (.valid [("11H00|2025-01-06", [("Padel 1", "occupé")])]))
          none none none [] []).state_file :=
  save_states_crash_safe _ _ _ _ _ _ rfl rfl (by decide)

/-- C3: saving a well-formed mapping (every key of the merged mapping
has a `'|'` separator and a date component not before today, so that the
cleanup and pruning filters keep every entry) and then loading the store
returns exactly that mapping. -/
theorem save_states_roundtrip (st : Checker) (states : CourtMap) (state_key today : String)
    (h : ∀ kv ∈ insertA state_key states st.previous_states,
        '|' ∈ kv.1.data ∧ strLe today (dateComp kv.1) = true) :
    _load_states (_save_states st states state_key today .success).state_file
      = insertA state_key states st.previous_states := by
  have h1 : (insertA state_key states st.previous_states).filter
      (fun kv => decide ('|' ∈ kv.1.data)) = insertA state_key states st.previous_states :=
    List.filter_eq_self.mpr fun kv hkv => by simpa using (h kv hkv).1
  have h2 : (insertA state_key states st.previous_states).filter
      (fun kv => strLe today (dateComp kv.1)) = insertA state_key states st.previous_states :=
    List.filter_eq_self.mpr fun kv hkv => (h kv hkv).2
  simp only [_save_states, _load_states]
  rw [h1, h2]

theorem save_states_roundtrip_witness :
    _load_states ((_save_states ⟨some (.valid []), none, none, none,
        [("12H00|2025-12-01", [("Padel 1", "occupé")])], []⟩
        [("Padel 1", "libre")] "11H00|2025-12-02" "2025-01-01" .success).state_file)
      = insertA "11H00|2025-12-02" [("Padel 1", "libre")]
          [("12H00|2025-12-01", [("Padel 1", "occupé")])] :=
  save_states_roundtrip _ _ _ _ (by decide)

/-- C5: loading either store when its backing file is absent, empty, or
unparsable returns an empty mapping (the embedded loaders are total, the
exception being caught inside the Python function). -/
theorem load_tolerates_bad_files :
    _load_states none = [] ∧ _load_states (some .empty) = [] ∧
      _load_states (some .garbage) = [] ∧
      _load_known_dates none = [] ∧ _load_known_dates (some .empty) = [] ∧
      _load_known_dates (some .garbage) = [] :=
  ⟨rfl, rfl, rfl, rfl, rfl, rfl⟩

/-- C6: after a successful `_save_states`, every key of the persisted
mapping has a date component (`k.split('|')[1]`) equal to or after
today. -/
theorem save_states_prunes_past (st : Checker) (states : CourtMap) (state_key today : String) :
    ∀ kv ∈ _load_states (_save_states st states state_key today .success).state_file,
      strLe today (dateComp kv.1) = true := by
  intro kv hkv
  simp only [_save_states, _load_states] at hkv
  exact (List.mem_filter.mp hkv).2

theorem save_states_prunes_past_witness :
    strLe "2025-01-01" (dateComp "11H00|2025-01-06") = true :=
  save_states_prunes_past ⟨none, none, none, none, [], []⟩ [] "11H00|2025-01-06" "2025-01-01"
    ("11H00|2025-01-06", []) (by decide)

/-- C7: an exception while fetching or parsing a cycle's page (modeled by
the `none` fetch input) is caught inside `check_availability` and
`check_all_dates`: both return empty result lists and leave every backing
file and backup file untouched. -/
theorem cycle_failure_degrades (target_time planning_date today : String)
    (target_times : List String) (st : Checker) :
    (check_availability none target_time planning_date today st).1 = [] ∧
    (check_availability none target_time planning_date today st).2.state_file = st.state_file ∧
    (check_availability none target_time planning_date today st).2.state_backup
      = st.state_backup ∧
    (check_availability none target_time planning_date today st).2.dates_file = st.dates_file ∧
    (check_availability none target_time planning_date today st).2.dates_backup
      = st.dates_backup ∧
    (check_all_dates none target_times today st).1 = ([], []) ∧
    (check_all_dates none target_times today st).2.state_file = st.state_file ∧
    (check_all_dates none target_times today st).2.state_backup = st.state_backup ∧
    (check_all_dates none target_times today st).2.dates_file = st.dates_file ∧
    (check_all_dates none target_times today st).2.dates_backup = st.dates_backup :=
  ⟨rfl, rfl, rfl, rfl, rfl, rfl, rfl, rfl, rfl, rfl⟩

/-- C10: constructing the checker over a state file and a dates file that
exist but hold unparsable content rewrites both files as the empty JSON
object: the corrupted content is destroyed at startup. -/
theorem ensure_files_resets_corrupt (sb : Option StateFileContent)
    (db : Option DatesFileContent) (prev : StatesMap) (known : List String) :
    (_ensure_files_exist ⟨some .garbage, sb, some .garbage, db, prev, known⟩).state_file
        = some (.valid []) ∧
      (_ensure_files_exist ⟨some .garbage, sb, some .garbage, db, prev, known⟩).dates_file
        = some (.valid []) :=
  ⟨rfl, rfl⟩

/-! ### Structure of one `processKey` step -/

theorem processKey_events (target_time planning_date today : String)
    (acc : List Evt × Checker) (kv : String × CourtMap) :
    (processKey target_time planning_date today acc kv).1
      = acc.1 ++ groupEvents acc.2.previous_states target_time planning_date kv.1 kv.2 := rfl

theorem processKey_previous_states (target_time planning_date today : String)
    (acc : List Evt × Checker) (kv : String × CourtMap) :
    (processKey target_time planning_date today acc kv).2.previous_states
      = ((insertA kv.1 kv.2 acc.2.previous_states).filter
          fun kv => decide ('|' ∈ kv.1.data)).filter
          fun kv => strLe today (dateComp kv.1) := by
  by_cases h : (lookupA kv.1 acc.2.previous_states).isSome <;>
    simp [processKey, _save_states, h, insertA_insertA_self]

theorem processKey_state_file (target_time planning_date today : String)
    (acc : List Evt × Checker) (kv : String × CourtMap) :
    (processKey target_time planning_date today acc kv).2.state_file
      = some (.valid ((processKey target_time planning_date today acc kv).2.previous_states)) := by
  by_cases h : (lookupA kv.1 acc.2.previous_states).isSome <;>
    simp [processKey, _save_states, h]

theorem processKey_other_fields (target_time planning_date today : String)
    (acc : List Evt × Checker) (kv : String × CourtMap) :
    (processKey target_time planning_date today acc kv).2.dates_file = acc.2.dates_file ∧
    (processKey target_time planning_date today acc kv).2.dates_backup = acc.2.dates_backup ∧
    (processKey target_time planning_date today acc kv).2.known_dates = acc.2.known_dates := by
  by_cases h : (lookupA kv.1 acc.2.previous_states).isSome <;>
    simp [processKey, _save_states, h]

theorem groupEvents_congr {prev prev' : StatesMap} {state_key : String}
    (h : lookupA state_key prev = lookupA state_key prev')
    (target_time planning_date : String) (web_state : CourtMap) :
    groupEvents prev target_time planning_date state_key web_state
      = groupEvents prev' target_time planning_date state_key web_state := by
  unfold groupEvents
  rw [h]

theorem lookupA_filter_bar {α : Type} (k : String) (m : List (String × α)) :
    lookupA k (m.filter fun kv => decide ('|' ∈ kv.1.data))
      = if '|' ∈ k.data then lookupA k m else none := by
  simpa using lookupA_filterKey (fun s => decide ('|' ∈ s.data)) k m

theorem lookupA_filter_date {α : Type} (today k : String) (m : List (String × α)) :
    lookupA k (m.filter fun kv => strLe today (dateComp kv.1))
      = if strLe today (dateComp k) then lookupA k m else none :=
  lookupA_filterKey (fun s => strLe today (dateComp s)) k m

theorem processKey_lookup_ne (target_time planning_date today : String)
    (acc : List Evt × Checker) (kv : String × CourtMap) {k : String}
    (hne : k ≠ kv.1) (hbar : '|' ∈ k.data) (hdat : strLe today (dateComp k) = true) :
    lookupA k (processKey target_time planning_date today acc kv).2.previous_states
      = lookupA k acc.2.previous_states := by
  rw [processKey_previous_states, lookupA_filter_date, lookupA_filter_bar,
    lookupA_insertA_ne hne]
  simp [hbar, hdat]

theorem processKey_lookup_self (target_time planning_date today : String)
    (acc : List Evt × Checker) (kv : String × CourtMap)
    (hbar : '|' ∈ kv.1.data) (hdat : strLe today (dateComp kv.1) = true) :
    lookupA kv.1 (processKey target_time planning_date today acc kv).2.previous_states
      = some kv.2 := by
  rw [processKey_previous_states, lookupA_filter_date, lookupA_filter_bar,
    lookupA_insertA_self]
  simp [hbar, hdat]

/-! ### The second pass of `check_availability` as a whole -/

theorem foldl_processKey_events (target_time planning_date today : String) (l : StatesMap) :
    ∀ (evts : List Evt) (st : Checker),
      (l.map Prod.fst).Nodup →
      (∀ kv ∈ l, '|' ∈ kv.1.data ∧ strLe today (dateComp kv.1) = true) →
      (l.foldl (processKey target_time planning_date today) (evts, st)).1
        = evts ++ (l.map fun kv =>
            groupEvents st.previous_states target_time planning_date kv.1 kv.2).flatten := by
  induction l with
  | nil => intro evts st _ _; simp
  | cons h t ih =>
    intro evts st hnd hgood
    simp only [List.map_cons, List.nodup_cons] at hnd
    have hgt : ∀ kv ∈ t, '|' ∈ kv.1.data ∧ strLe today (dateComp kv.1) = true :=
      fun kv hkv => hgood kv (List.mem_cons_of_mem _ hkv)
    rw [List.foldl_cons]
    have step2 := ih (processKey target_time planning_date today (evts, st) h).1
      (processKey target_time planning_date today (evts, st) h).2 hnd.2 hgt
    refine Eq.trans step2 ?_
    rw [processKey_events]
    have hmap : (t.map fun kv => groupEvents
          (processKey target_time planning_date today (evts, st) h).2.previous_states
          target_time planning_date kv.1 kv.2)
        = t.map fun kv =>
            groupEvents st.previous_states target_time planning_date kv.1 kv.2 := by
      refine List.map_congr_left ?_
      intro kv hkv
      refine groupEvents_congr ?_ _ _ _
      refine processKey_lookup_ne _ _ _ _ _ ?_ (hgt kv hkv).1 (hgt kv hkv).2
      intro he
      exact hnd.1 (he ▸ List.mem_map_of_mem Prod.fst hkv)
    rw [hmap]
    simp [List.append_assoc]

theorem foldl_processKey_lookup_preserved (target_time planning_date today : String)
    (t : StatesMap) :
    ∀ (acc : List Evt × Checker) (k : String),
      k ∉ t.map Prod.fst → '|' ∈ k.data → strLe today (dateComp k) = true →
      lookupA k ((t.foldl (processKey target_time planning_date today) acc).2.previous_states)
        = lookupA k acc.2.previous_states := by
  induction t with
  | nil => intro acc k _ _ _; rfl
  | cons h t ih =>
    intro acc k hk hbar hdat
    have hk1 : k ∉ t.map Prod.fst := fun hm => hk (by simp [hm])
    have hkh : k ≠ h.1 := by
      intro he
      exact hk (by simp [he])
    rw [List.foldl_cons, ih _ k hk1 hbar hdat]
    exact processKey_lookup_ne _ _ _ _ _ hkh hbar hdat

theorem foldl_processKey_lookup (target_time planning_date today : String) (l : StatesMap) :
    ∀ (evts : List Evt) (st : Checker),
      (l.map Prod.fst).Nodup →
      (∀ kv ∈ l, '|' ∈ kv.1.data ∧ strLe today (dateComp kv.1) = true) →
      ∀ kv ∈ l,
        lookupA kv.1 ((l.foldl (processKey target_time planning_date today)
          (evts, st)).2.previous_states) = some kv.2 := by
  induction l with
  | nil => intro evts st _ _ kv hkv; simp at hkv
  | cons h t ih =>
    intro evts st hnd hgood kv hkv
    simp only [List.map_cons, List.nodup_cons] at hnd
    have hgt : ∀ kv ∈ t, '|' ∈ kv.1.data ∧ strLe today (dateComp kv.1) = true :=
      fun kv hkv => hgood kv (List.mem_cons_of_mem _ hkv)
    rw [List.foldl_cons]
    rcases List.mem_cons.mp hkv with hkv | hkv
    · subst hkv
      have hgh := hgood kv (List.mem_cons_self _ _)
      rw [foldl_processKey_lookup_preserved _ _ _ _ _ _ hnd.1 hgh.1 hgh.2]
      exact processKey_lookup_self _ _ _ _ _ hgh.1 hgh.2
    · have := ih (processKey target_time planning_date today (evts, st) h).1
        (processKey target_time planning_date today (evts, st) h).2 hnd.2 hgt kv hkv
      exact this

theorem foldl_processKey_state_file (target_time planning_date today : String) (l : StatesMap) :
    ∀ acc : List Evt × Checker, l ≠ [] →
      (l.foldl (processKey target_time planning_date today) acc).2.state_file
        = some (.valid ((l.foldl (processKey target_time planning_date today)
            acc).2.previous_states)) := by
  induction l with
  | nil => intro acc h; exact absurd rfl h
  | cons h t ih =>
    intro acc _
    rw [List.foldl_cons]
    cases t with
    | nil =>
      simp only [List.foldl_nil]
      exact processKey_state_file _ _ _ _ _
    | cons h2 t2 => exact ih _ (List.cons_ne_nil _ _)

theorem foldl_processKey_other_fields (target_time planning_date today : String)
    (l : StatesMap) :
    ∀ acc : List Evt × Checker,
      (l.foldl (processKey target_time planning_date today) acc).2.dates_file
          = acc.2.dates_file ∧
        (l.foldl (processKey target_time planning_date today) acc).2.dates_backup
          = acc.2.dates_backup ∧
        (l.foldl (processKey target_time planning_date today) acc).2.known_dates
          = acc.2.known_dates := by
  induction l with
  | nil => intro acc; exact ⟨rfl, rfl, rfl⟩
  | cons h t ih =>
    intro acc
    rw [List.foldl_cons]
    have h1 := ih (processKey target_time planning_date today acc h)
    have h2 := processKey_other_fields target_time planning_date today acc h
    exact ⟨h1.1.trans h2.1, h1.2.1.trans h2.2.1, h1.2.2.trans h2.2.2⟩

/-! ### Shape of the collected `web_states` -/

theorem buildWebStates_aux_nodup (planning_date : String) (page : Page) :
    ∀ acc : StatesMap, (acc.map Prod.fst).Nodup →
      (((page.foldl (webStep planning_date) acc)).map Prod.fst).Nodup := by
  induction page with
  | nil => intro acc h; simpa using h
  | cons r page ih =>
    intro acc h
    rw [List.foldl_cons]
    refine ih _ ?_
    cases hrt : r.timeCell with
    | none => simpa [webStep, hrt] using h
    | some t =>
      by_cases ht : t = "" ∨ t = "Horaires"
      · simpa [webStep, hrt, ht] using h
      · simp only [webStep, hrt, ht, if_false]
        exact keys_insertA_nodup _ _ _ h

theorem buildWebStates_keys_nodup (page : Page) (planning_date : String) :
    ((buildWebStates page planning_date).map Prod.fst).Nodup :=
  buildWebStates_aux_nodup planning_date page [] (by simp)

theorem buildWebStates_aux_mem (planning_date : String) (page : Page) :
    ∀ (acc : StatesMap) (kv : String × CourtMap),
      kv ∈ page.foldl (webStep planning_date) acc →
      kv ∈ acc ∨ ∃ r ∈ page, ∃ tr, r.timeCell = some tr ∧
        kv.1 = tr ++ "|" ++ planning_date := by
  induction page with
  | nil => intro acc kv h; exact Or.inl h
  | cons r page ih =>
    intro acc kv h
    rw [List.foldl_cons] at h
    rcases ih _ kv h with h1 | ⟨r', hr', tr, hrt, hk⟩
    · cases hrt : r.timeCell with
      | none =>
        rw [webStep, hrt] at h1
        exact Or.inl h1
      | some t =>
        by_cases ht : t = "" ∨ t = "Horaires"
        · rw [show webStep planning_date acc r = acc by simp [webStep, hrt, ht]] at h1
          exact Or.inl h1
        · rw [show webStep planning_date acc r
              = insertA (t ++ "|" ++ planning_date)
                  (_find_available_slots_for_time r.courts).2 acc by
              simp [webStep, hrt, ht]] at h1
          rcases mem_insertA h1 with h2 | h2
          · exact Or.inr ⟨r, List.mem_cons_self _ _, t, hrt, by rw [h2]⟩
          · exact Or.inl h2
    · exact Or.inr ⟨r', List.mem_cons_of_mem _ hr', tr, hrt, hk⟩

theorem buildWebStates_mem (planning_date : String) (page : Page)
    (kv : String × CourtMap) (h : kv ∈ buildWebStates page planning_date) :
    ∃ r ∈ page, ∃ tr, r.timeCell = some tr ∧ kv.1 = tr ++ "|" ++ planning_date := by
  rcases buildWebStates_aux_mem planning_date page [] kv h with h1 | h1
  · simp at h1
  · exact h1

theorem buildWebStates_good (page : Page) (planning_date today : String)
    (hrows : ∀ r ∈ page, ∀ t, r.timeCell = some t → '|' ∉ t.data)
    (hdate : '|' ∉ planning_date.data)
    (htoday : strLe today planning_date = true) :
    ∀ kv ∈ buildWebStates page planning_date,
      '|' ∈ kv.1.data ∧ strLe today (dateComp kv.1) = true := by
  intro kv hkv
  rcases buildWebStates_mem planning_date page kv hkv with ⟨r, hr, tr, hrt, hk⟩
  rw [hk]
  refine ⟨bar_mem_key _ _, ?_⟩
  rw [dateComp_key _ _ (hrows r hr tr hrt) hdate]
  exact htoday

/-! ### Membership in the events of one group -/

theorem foldl_events_filter (target_time planning_date : String) (pm : CourtMap)
    (w : CourtMap) :
    ∀ acc : List Evt,
      w.foldl (fun new_slots cw =>
          if cw.2 = "libre" then
            if lookupA cw.1 pm = some "occupé" then
              new_slots ++ [(target_time, cw.1, planning_date)]
            else new_slots
          else new_slots) acc
        = acc ++ (w.filter fun cw =>
            decide (cw.2 = "libre") && decide (lookupA cw.1 pm = some "occupé")).map
            fun cw => (target_time, cw.1, planning_date) := by
  induction w with
  | nil => intro acc; simp
  | cons cw w ih =>
    intro acc
    rw [List.foldl_cons]
    by_cases h1 : cw.2 = "libre"
    · by_cases h2 : lookupA cw.1 pm = some "occupé"
      · simp [h1, h2, ih, List.filter_cons]
      · simp [h1, h2, ih, List.filter_cons]
    · simp [h1, ih, List.filter_cons]

theorem groupEvents_eq_filterMap (prev : StatesMap) (target_time planning_date key : String)
    (w : CourtMap) :
    groupEvents prev target_time planning_date key w
      = if timeComp key = target_time then
          match lookupA key prev with
          | some pm => (w.filter fun cw =>
              decide (cw.2 = "libre") && decide (lookupA cw.1 pm = some "occupé")).map
              fun cw => (target_time, cw.1, planning_date)
          | none => []
        else [] := by
  unfold groupEvents
  by_cases ht : timeComp key = target_time
  · simp only [ht, if_true]
    cases hl : lookupA key prev with
    | none => rfl
    | some pm => simpa using foldl_events_filter target_time planning_date pm w []
  · simp [ht]

theorem groupEvents_shape (prev : StatesMap) (target_time planning_date key : String)
    (w : CourtMap) :
    ∀ e ∈ groupEvents prev target_time planning_date key w,
      e.1 = target_time ∧ e.2.2 = planning_date := by
  rw [groupEvents_eq_filterMap]
  intro e he
  by_cases ht : timeComp key = target_time
  · rw [if_pos ht] at he
    cases hl : lookupA key prev with
    | none => rw [hl] at he; simp at he
    | some pm =>
      rw [hl] at he
      rcases List.mem_map.mp he with ⟨cw, _, heq⟩
      rw [← heq]
      exact ⟨rfl, rfl⟩
  · rw [if_neg ht] at he
    simp at he

theorem groupEvents_mem_iff (prev : StatesMap) (target_time planning_date key : String)
    (w : CourtMap) (c : String) :
    (target_time, c, planning_date) ∈ groupEvents prev target_time planning_date key w ↔
      timeComp key = target_time ∧ ∃ pm, lookupA key prev = some pm ∧
        (c, "libre") ∈ w ∧ lookupA c pm = some "occupé" := by
  rw [groupEvents_eq_filterMap]
  by_cases ht : timeComp key = target_time
  · rw [if_pos ht]
    cases hl : lookupA key prev with
    | none =>
      simp only [List.not_mem_nil, false_iff]
      rintro ⟨-, pm, hpm, -⟩
      exact Option.noConfusion hpm
    | some pm =>
      constructor
      · intro hmem
        rcases List.mem_map.mp hmem with ⟨cw, hcw, heq⟩
        have hfil := List.mem_filter.mp hcw
        have hconds := hfil.2
        rw [Bool.and_eq_true, decide_eq_true_eq, decide_eq_true_eq] at hconds
        have hc : cw.1 = c := by
          have h21 := congrArg (fun e : Evt => e.2.1) heq
          simpa using h21
        have hcw2 : cw = (c, "libre") := by
          cases cw with
          | mk a b =>
            simp only at hc
            simp only [Prod.mk.injEq]
            exact ⟨hc, by simpa using hconds.1⟩
        refine ⟨ht, pm, rfl, hcw2 ▸ hfil.1, ?_⟩
        rw [← hc]
        exact hconds.2
      · rintro ⟨-, pm', hpm', hmem, hocc⟩
        obtain rfl : pm = pm' := Option.some.inj hpm'
        refine List.mem_map.mpr ⟨(c, "libre"), ?_, rfl⟩
        refine List.mem_filter.mpr ⟨hmem, ?_⟩
        rw [Bool.and_eq_true, decide_eq_true_eq, decide_eq_true_eq]
        exact ⟨rfl, hocc⟩
  · rw [if_neg ht]
    simp only [List.not_mem_nil, false_iff]
    rintro ⟨h1, -⟩
    exact ht h1

theorem foldl_processKey_events_shape (target_time planning_date today : String)
    (l : StatesMap) :
    ∀ (acc : List Evt × Checker) (e : Evt),
      e ∈ (l.foldl (processKey target_time planning_date today) acc).1 →
      e ∈ acc.1 ∨ (e.1 = target_time ∧ e.2.2 = planning_date) := by
  induction l with
  | nil => intro acc e he; exact Or.inl he
  | cons h t ih =>
    intro acc e he
    rw [List.foldl_cons] at he
    rcases ih _ e he with h1 | h1
    · rw [processKey_events] at h1
      rcases List.mem_append.mp h1 with h2 | h2
      · exact Or.inl h2
      · exact Or.inr (groupEvents_shape _ _ _ _ _ e h2)
    · exact Or.inr h1

theorem key_eq_time (t tr d : String) (h : t ++ "|" ++ d = tr ++ "|" ++ d) : t = tr := by
  have hd := congrArg String.data h
  rw [key_data, key_data] at hd
  have hlen : t.data.length = tr.data.length := by
    have h2 := congrArg List.length hd
    simp only [List.length_append, List.length_cons] at h2
    omega
  have h3 := (List.append_inj hd hlen).1
  calc t = String.mk t.data := rfl
    _ = String.mk tr.data := by rw [h3]
    _ = tr := rfl

theorem check_availability_some (page : Page) (target_time planning_date today : String)
    (st : Checker) :
    check_availability (some page) target_time planning_date today st
      = (buildWebStates page planning_date).foldl (processKey target_time planning_date today)
          ([], { st with previous_states := _load_states st.state_file }) := rfl

/-- C9: every tuple returned by `check_availability` has the requested
target time as time component and the processed planning date as date
component, so an occupied-to-free transition in a row at another time is
never returned as an event; nonetheless the full status mapping of every
snapshot group — target-time row or not — is persisted as the new stored
baseline. -/
theorem check_availability_target_only (page : Page)
    (target_time planning_date today : String) (st : Checker)
    (hrows : ∀ r ∈ page, ∀ t, r.timeCell = some t → '|' ∉ t.data)
    (hdate : '|' ∉ planning_date.data)
    (htoday : strLe today planning_date = true) :
    (∀ e ∈ (check_availability (some page) target_time planning_date today st).1,
        e.1 = target_time ∧ e.2.2 = planning_date) ∧
      ∀ kv ∈ buildWebStates page planning_date,
        lookupA kv.1 (_load_states
          (check_availability (some page) target_time planning_date today st).2.state_file)
          = some kv.2 := by
  constructor
  · intro e he
    rw [check_availability_some] at he
    rcases foldl_processKey_events_shape _ _ _ _ _ e he with h1 | h1
    · simp at h1
    · exact h1
  · intro kv hkv
    rw [check_availability_some]
    have hne : buildWebStates page planning_date ≠ [] := by
      intro h0
      rw [h0] at hkv
      simp at hkv
    rw [foldl_processKey_state_file _ _ _ _ _ hne]
    simp only [_load_states]
    exact foldl_processKey_lookup _ _ _ _ [] _ (buildWebStates_keys_nodup page planning_date)
      (buildWebStates_good page planning_date today hrows hdate htoday) kv hkv

theorem check_availability_target_only_witness :
    lookupA "11H00|2025-01-06" (_load_states
      (check_availability (some [⟨some "11H00", [["libre"]]⟩]) "11H00" "2025-01-06"
        "2025-01-01" ⟨some (.valid [("11H00|2025-01-06", [("Padel 1", "occupé")])]),
        none, none, none, [], []⟩).2.state_file) = some [("Padel 1", "libre")] :=
  (check_availability_target_only [⟨some "11H00", [["libre"]]⟩] "11H00" "2025-01-06"
      "2025-01-01" ⟨some (.valid [("11H00|2025-01-06", [("Padel 1", "occupé")])]),
      none, none, none, [], []⟩
      (by
        intro r hr t hrt
        rw [List.mem_singleton] at hr
        subst hr
        have h := Option.some.inj (show some "11H00" = some t from hrt)
        rw [← h]
        decide)
      (by decide) (by decide)).2
    ("11H00|2025-01-06", [("Padel 1", "libre")]) (by decide)

/-- C2, counterexample: with requested target time `"11H00"`, the court
`"Padel 1"` of the `("10H00", "2025-01-07")` snapshot group has stored
previous status `"occupé"` and new status `"libre"` — the claim's
condition for a SlotFreed event — yet `check_availability` returns no
event at all: the claim's "if" direction fails for a group whose time
label differs from the target time. -/
theorem check_availability_freed_iff_counterexample :
    lookupA "10H00|2025-01-07" (buildWebStates [⟨some "10H00", [["libre"]]⟩] "2025-01-07")
        = some [("Padel 1", "libre")] ∧
      lookupA "10H00|2025-01-07" (_load_states (some (.valid
          [("10H00|2025-01-07", [("Padel 1", "occupé")])])))
        = some [("Padel 1", "occupé")] ∧
      (check_availability (some [⟨some "10H00", [["libre"]]⟩]) "11H00" "2025-01-07"
          "2025-01-01" ⟨some (.valid [("10H00|2025-01-07", [("Padel 1", "occupé")])]),
          none, none, none, [], []⟩).1 = [] ∧
      ("10H00", "Padel 1", "2025-01-07")
          ∉ (check_availability (some [⟨some "10H00", [["libre"]]⟩]) "11H00" "2025-01-07"
          "2025-01-01" ⟨some (.valid [("10H00|2025-01-07", [("Padel 1", "occupé")])]),
          none, none, none, [], []⟩).1 :=
  ⟨by decide, by decide, by decide, by decide⟩

/-- C2 (amended): every returned event carries the requested target time
and the processed planning date, and for the snapshot group stored under
`"target_time|planning_date"` an event `(target_time, court, date)` is
returned iff that court's new status is `"libre"` and its stored previous
status under that key is `"occupé"`; in particular no event arises from a
group at another time label, nor when the previous status is absent or
already free. -/
theorem check_availability_freed_iff (page : Page)
    (target_time planning_date today : String) (st : Checker)
    (hrows : ∀ r ∈ page, ∀ t, r.timeCell = some t → '|' ∉ t.data)
    (hdate : '|' ∉ planning_date.data)
    (htoday : strLe today planning_date = true) :
    (∀ e ∈ (check_availability (some page) target_time planning_date today st).1,
        e.1 = target_time ∧ e.2.2 = planning_date) ∧
      ∀ c : String,
        (target_time, c, planning_date)
            ∈ (check_availability (some page) target_time planning_date today st).1 ↔
          ∃ cm, lookupA (target_time ++ "|" ++ planning_date)
              (buildWebStates page planning_date) = some cm ∧ (c, "libre") ∈ cm ∧
            ∃ pm, lookupA (target_time ++ "|" ++ planning_date)
                (_load_states st.state_file) = some pm ∧ lookupA c pm = some "occupé" := by
  have hnd := buildWebStates_keys_nodup page planning_date
  have hgood := buildWebStates_good page planning_date today hrows hdate htoday
  constructor
  · intro e he
    rw [check_availability_some] at he
    rcases foldl_processKey_events_shape _ _ _ _ _ e he with h1 | h1
    · simp at h1
    · exact h1
  · intro c
    rw [check_availability_some,
      foldl_processKey_events _ _ _ _ [] _ hnd hgood, List.nil_append, List.mem_flatten]
    constructor
    · rintro ⟨es, hes, hmem⟩
      rcases List.mem_map.mp hes with ⟨kv, hkv, rfl⟩
      have hiff := (groupEvents_mem_iff _ _ _ _ _ _).mp hmem
      rcases buildWebStates_mem planning_date page kv hkv with ⟨r, hr, tr, hrt, hk⟩
      have htr : '|' ∉ tr.data := hrows r hr tr hrt
      have htc : timeComp kv.1 = tr := by
        rw [hk]
        exact timeComp_key _ _ htr hdate
      have h1 := hiff.1
      rw [htc] at h1
      have hkey : kv.1 = target_time ++ "|" ++ planning_date := by
        rw [hk, h1]
      rcases hiff.2 with ⟨pm, hpm, hcm, hocc⟩
      refine ⟨kv.2, ?_, hcm, pm, ?_, hocc⟩
      · rw [← hkey]
        exact mem_lookupA_of_nodup hnd hkv
      · rw [← hkey]
        exact hpm
    · rintro ⟨cm, hcm, hmemc, pm, hpm, hocc⟩
      have hkvmem : (target_time ++ "|" ++ planning_date, cm)
          ∈ buildWebStates page planning_date := lookupA_eq_some_mem hcm
      rcases buildWebStates_mem planning_date page _ hkvmem with ⟨r, hr, tr, hrt, hk⟩
      have hk' : target_time ++ "|" ++ planning_date = tr ++ "|" ++ planning_date := hk
      have htt : target_time = tr := key_eq_time _ _ _ hk'
      have httbar : '|' ∉ target_time.data := by
        rw [htt]
        exact hrows r hr tr hrt
      refine ⟨_, List.mem_map.mpr ⟨(target_time ++ "|" ++ planning_date, cm), hkvmem, rfl⟩, ?_⟩
      refine (groupEvents_mem_iff _ _ _ _ _ _).mpr ⟨?_, pm, hpm, hmemc, hocc⟩
      exact timeComp_key _ _ httbar hdate

theorem check_availability_freed_iff_witness :
    ("11H00", "Padel 1", "2025-01-06")
      ∈ (check_availability (some [⟨some "11H00", [["libre"]]⟩]) "11H00" "2025-01-06"
        "2025-01-01" ⟨some (.valid [("11H00|2025-01-06", [("Padel 1", "occupé")])]),
        none, none, none, [], []⟩).1 :=
  ((check_availability_freed_iff [⟨some "11H00", [["libre"]]⟩] "11H00" "2025-01-06"
      "2025-01-01" ⟨some (.valid [("11H00|2025-01-06", [("Padel 1", "occupé")])]),
      none, none, none, [], []⟩
      (by
        intro r hr t hrt
        rw [List.mem_singleton] at hr
        subst hr
        have h := Option.some.inj (show some "11H00" = some t from hrt)
        rw [← h]
        decide)
      (by decide) (by decide)).2 "Padel 1").mpr
    ⟨[("Padel 1", "libre")], by decide, by decide,
      [("Padel 1", "occupé")], by decide, by decide⟩

/-! ### Ordering lemmas for the date sort -/

theorem listLexLe_total : ∀ as bs : List Char, listLexLe as bs = true ∨ listLexLe bs as = true := by
  intro as
  induction as with
  | nil => intro bs; exact Or.inl rfl
  | cons a as ih =>
    intro bs
    cases bs with
    | nil => exact Or.inr rfl
    | cons b bs =>
      by_cases hab : a = b
      · subst hab
        rcases ih bs with h | h
        · exact Or.inl (by simp [listLexLe, h])
        · exact Or.inr (by simp [listLexLe, h])
      · rcases lt_or_gt_of_ne hab with h | h
        · exact Or.inl (by simp [listLexLe, hab, h])
        · have hba : b ≠ a := fun he => hab he.symm
          exact Or.inr (by simp [listLexLe, hba, h])

theorem listLexLe_trans : ∀ as bs cs : List Char,
    listLexLe as bs = true → listLexLe bs cs = true → listLexLe as cs = true := by
  intro as
  induction as with
  | nil => intro bs cs _ _; rfl
  | cons a as ih =>
    intro bs cs h1 h2
    cases bs with
    | nil => simp [listLexLe] at h1
    | cons b bs =>
      cases cs with
      | nil => simp [listLexLe] at h2
      | cons c cs =>
        by_cases hab : a = b
        · subst hab
          simp only [listLexLe, if_pos rfl] at h1
          by_cases hac : a = c
          · subst hac
            simp only [listLexLe, if_pos rfl] at h2 ⊢
            exact ih _ _ h1 h2
          · simp only [listLexLe, if_neg hac] at h2 ⊢
            exact h2
        · simp only [listLexLe, if_neg hab, decide_eq_true_eq] at h1
          by_cases hbc : b = c
          · subst hbc
            simp only [listLexLe, if_neg hab, decide_eq_true_eq]
            exact h1
          · simp only [listLexLe, if_neg hbc, decide_eq_true_eq] at h2
            have hlt : a < c := lt_trans h1 h2
            simp only [listLexLe, if_neg (ne_of_lt hlt), decide_eq_true_eq]
            exact hlt

theorem strLe_total (a b : String) : strLe a b = true ∨ strLe b a = true :=
  listLexLe_total a.data b.data

theorem strLe_trans {a b c : String} (h1 : strLe a b = true) (h2 : strLe b c = true) :
    strLe a c = true :=
  listLexLe_trans a.data b.data c.data h1 h2

theorem insSorted_perm (d : String) (l : List String) : (insSorted d l).Perm (d :: l) := by
  induction l with
  | nil => simp [insSorted]
  | cons x xs ih =>
    by_cases h : strLe d x = true
    · simp [insSorted, h]
    · simp only [insSorted, h, if_false]
      exact (List.Perm.cons x ih).trans (List.Perm.swap d x xs)

theorem sortDates_perm (l : List String) : (sortDates l).Perm l := by
  induction l with
  | nil => simp [sortDates]
  | cons x xs ih =>
    have h1 : sortDates (x :: xs) = insSorted x (sortDates xs) := rfl
    rw [h1]
    exact (insSorted_perm x (sortDates xs)).trans (List.Perm.cons x ih)

theorem mem_sortDates (x : String) (l : List String) : x ∈ sortDates l ↔ x ∈ l :=
  (sortDates_perm l).mem_iff

theorem pairwise_insSorted (d : String) (l : List String)
    (h : l.Pairwise fun a b => strLe a b = true) :
    (insSorted d l).Pairwise fun a b => strLe a b = true := by
  induction l with
  | nil => simp [insSorted]
  | cons x xs ih =>
    rcases List.pairwise_cons.mp h with ⟨hx, hxs⟩
    by_cases hdx : strLe d x = true
    · simp only [insSorted, hdx, if_true]
      refine List.pairwise_cons.mpr ⟨?_, h⟩
      intro b hb
      rcases List.mem_cons.mp hb with rfl | hb
      · exact hdx
      · exact strLe_trans hdx (hx b hb)
    · simp only [insSorted, hdx, if_false]
      refine List.pairwise_cons.mpr ⟨?_, ih hxs⟩
      intro b hb
      have hb2 := (insSorted_perm d xs).mem_iff.mp hb
      rcases List.mem_cons.mp hb2 with rfl | hb2
      · rcases strLe_total b x with h1 | h1
        · exact absurd h1 hdx
        · exact h1
      · exact hx b hb2

theorem sortDates_sorted (l : List String) :
    (sortDates l).Pairwise fun a b => strLe a b = true := by
  induction l with
  | nil => simp [sortDates]
  | cons x xs ih => exact pairwise_insSorted x (sortDates xs) ih

/-! ### Grouping the known dates by month -/

theorem addToMonth_monthKey (acc : DatesMap) (d : String)
    (h : ∀ mv ∈ acc, ∀ x ∈ mv.2, monthOf x = mv.1) :
    ∀ mv ∈ addToMonth acc d, ∀ x ∈ mv.2, monthOf x = mv.1 := by
  intro mv hmv x hx
  unfold addToMonth at hmv
  cases hl : lookupA (monthOf d) acc with
  | some ds =>
    rw [hl] at hmv
    simp only at hmv
    rcases mem_insertA hmv with h1 | h1
    · have hds : (monthOf d, ds) ∈ acc := lookupA_eq_some_mem hl
      rw [h1] at hx ⊢
      rcases List.mem_append.mp hx with h2 | h2
      · exact h (monthOf d, ds) hds x h2
      · rw [List.mem_singleton] at h2
        subst h2
        rfl
    · exact h mv h1 x hx
  | none =>
    rw [hl] at hmv
    simp only at hmv
    rcases List.mem_append.mp hmv with h1 | h1
    · exact h mv h1 x hx
    · rw [List.mem_singleton] at h1
      subst h1
      rw [List.mem_singleton] at hx
      subst hx
      rfl

theorem groupFold_monthKey (dates : List String) :
    ∀ acc : DatesMap, (∀ mv ∈ acc, ∀ x ∈ mv.2, monthOf x = mv.1) →
      ∀ mv ∈ dates.foldl addToMonth acc, ∀ x ∈ mv.2, monthOf x = mv.1 := by
  induction dates with
  | nil => intro acc h; exact h
  | cons d ds ih =>
    intro acc h
    rw [List.foldl_cons]
    exact ih _ (addToMonth_monthKey acc d h)

theorem flatten_insertA_bucket (mo : String) (d : String) :
    ∀ (acc : DatesMap) (ds : List String), lookupA mo acc = some ds →
      ((insertA mo (ds ++ [d]) acc).map Prod.snd).flatten.Perm
        (((acc.map Prod.snd).flatten) ++ [d]) := by
  intro acc
  induction acc with
  | nil => intro ds hl; simp [lookupA] at hl
  | cons hd tl ih =>
    intro ds hl
    cases hd with
    | mk k v =>
      by_cases hk : k = mo
      · subst hk
        rw [lookupA_cons_eq] at hl
        obtain rfl : v = ds := Option.some.inj hl
        rw [insertA_cons_eq]
        simp only [List.map_cons, List.flatten_cons]
        rw [List.append_assoc, List.append_assoc]
        exact List.Perm.append_left _ List.perm_append_comm
      · rw [lookupA_cons_ne hk] at hl
        rw [insertA_cons_ne hk]
        simp only [List.map_cons, List.flatten_cons]
        rw [List.append_assoc]
        exact List.Perm.append_left v (ih ds hl)

theorem flatten_addToMonth (acc : DatesMap) (d : String) :
    ((addToMonth acc d).map Prod.snd).flatten.Perm ((acc.map Prod.snd).flatten ++ [d]) := by
  unfold addToMonth
  cases hl : lookupA (monthOf d) acc with
  | some ds => exact flatten_insertA_bucket (monthOf d) d acc ds hl
  | none =>
    simp only [List.map_append, List.flatten_append, List.map_cons, List.flatten_cons,
      List.map_nil, List.flatten_nil, List.append_nil]
    exact List.Perm.refl _

theorem flatten_groupFold (dates : List String) :
    ∀ acc : DatesMap, ((dates.foldl addToMonth acc).map Prod.snd).flatten.Perm
      ((acc.map Prod.snd).flatten ++ dates) := by
  induction dates with
  | nil => intro acc; simp
  | cons d ds ih =>
    intro acc
    rw [List.foldl_cons]
    refine (ih (addToMonth acc d)).trans ?_
    refine (List.Perm.append_right ds (flatten_addToMonth acc d)).trans ?_
    rw [List.append_assoc]
    exact List.Perm.refl _

theorem flatten_groupByMonth_perm (dates : List String) :
    ((groupByMonth dates).map Prod.snd).flatten.Perm dates := by
  unfold groupByMonth
  have h1 : (((dates.foldl addToMonth []).map fun mv => (mv.1, sortDates mv.2)).map
      Prod.snd) = (dates.foldl addToMonth []).map fun mv => sortDates mv.2 := by
    rw [List.map_map]
    rfl
  rw [h1]
  have h2 : List.Forall₂ List.Perm ((dates.foldl addToMonth []).map fun mv => sortDates mv.2)
      ((dates.foldl addToMonth []).map Prod.snd) := by
    rw [List.forall₂_map_left_iff, List.forall₂_map_right_iff, List.forall₂_same]
    intro mv _
    exact sortDates_perm mv.2
  refine (List.Perm.flatten_congr h2).trans ?_
  simpa using flatten_groupFold dates []

theorem mem_flatten_groupByMonth (dates : List String) (x : String) :
    x ∈ ((groupByMonth dates).map Prod.snd).flatten ↔ x ∈ dates :=
  (flatten_groupByMonth_perm dates).mem_iff

theorem nodup_flatten_groupByMonth (dates : List String) (h : dates.Nodup) :
    ((groupByMonth dates).map Prod.snd).flatten.Nodup :=
  (flatten_groupByMonth_perm dates).nodup_iff.mpr h

theorem groupByMonth_months (dates : List String) :
    ∀ mv ∈ groupByMonth dates, (∀ x ∈ mv.2, monthOf x = mv.1) ∧
      mv.2.Pairwise fun a b => strLe a b = true := by
  intro mv hmv
  unfold groupByMonth at hmv
  rcases List.mem_map.mp hmv with ⟨mw, hmw, rfl⟩
  constructor
  · intro x hx
    have hx2 : x ∈ sortDates mw.2 := hx
    rw [mem_sortDates] at hx2
    exact groupFold_monthKey dates [] (by simp) mw hmw x hx2
  · exact sortDates_sorted mw.2

theorem setInsertAll_nodup (known dates : List String) (h : known.Nodup) :
    (setInsertAll known dates).Nodup := by
  unfold setInsertAll
  refine List.Nodup.append h (List.Nodup.filter _ (List.nodup_dedup dates)) ?_
  intro a ha hb
  have h2 := (List.mem_filter.mp hb).2
  rw [decide_eq_true_eq] at h2
  exact h2 ha

theorem mem_setInsertAll_self (known : List String) (d : String) :
    d ∈ setInsertAll known [d] := by
  by_cases h : d ∈ known
  · exact List.mem_append_left _ h
  · refine List.mem_append_right _ ?_
    refine List.mem_filter.mpr ⟨?_, by simpa using h⟩
    rw [List.dedup_cons_of_not_mem (List.not_mem_nil d), List.dedup_nil]
    exact List.mem_singleton_self d

/-! ### Key uniqueness of the month grouping -/

theorem lookupA_none_not_mem {α : Type} {k : String} {m : List (String × α)}
    (h : lookupA k m = none) : k ∉ m.map Prod.fst := by
  induction m with
  | nil => simp
  | cons hd tl ih =>
    cases hd with
    | mk k₀ v =>
      by_cases h0 : k₀ = k
      · subst h0
        rw [lookupA_cons_eq] at h
        exact Option.noConfusion h
      · rw [lookupA_cons_ne h0] at h
        simp only [List.map_cons, List.mem_cons]
        rintro (h1 | h1)
        · exact h0 h1.symm
        · exact ih h h1

theorem entries_eq_of_keys_nodup {α : Type} {l : List (String × α)} {p q : String × α}
    (h : (l.map Prod.fst).Nodup) (hp : p ∈ l) (hq : q ∈ l) (hk : p.1 = q.1) : p = q := by
  have h1 := mem_lookupA_of_nodup h hp
  have h2 := mem_lookupA_of_nodup h hq
  rw [hk] at h1
  have h3 : p.2 = q.2 := Option.some.inj (h1.symm.trans h2)
  exact Prod.ext_iff.mpr ⟨hk, h3⟩

theorem addToMonth_keys_nodup (acc : DatesMap) (d : String)
    (h : (acc.map Prod.fst).Nodup) : ((addToMonth acc d).map Prod.fst).Nodup := by
  unfold addToMonth
  cases hl : lookupA (monthOf d) acc with
  | some ds => exact keys_insertA_nodup _ _ _ h
  | none =>
    rw [List.map_append]
    simp only [List.map_cons, List.map_nil]
    refine List.Nodup.append h (List.nodup_singleton _) ?_
    intro a ha hb
    rw [List.mem_singleton] at hb
    subst hb
    exact lookupA_none_not_mem hl ha

theorem groupFold_keys_nodup (dates : List String) :
    ∀ acc : DatesMap, (acc.map Prod.fst).Nodup →
      ((dates.foldl addToMonth acc).map Prod.fst).Nodup := by
  induction dates with
  | nil => intro acc h; exact h
  | cons d ds ih =>
    intro acc h
    rw [List.foldl_cons]
    exact ih _ (addToMonth_keys_nodup acc d h)

theorem groupByMonth_keys_nodup (s : List String) :
    ((groupByMonth s).map Prod.fst).Nodup := by
  unfold groupByMonth
  rw [List.map_map]
  have hcomp : (Prod.fst ∘ fun mv : String × List String => (mv.1, sortDates mv.2))
      = Prod.fst := rfl
  rw [hcomp]
  exact groupFold_keys_nodup s [] (by simp)

/-! ### Claim theorems: the known-dates registry -/

/-- C8: the mapping written by a successful `_save_known_dates` maps each
month key to the ascending-sorted list of exactly the known dates whose
own `[:7]` month prefix is that key: every date of a bucket carries the
bucket's month (soundness), every updated known date with that month is
in the bucket (completeness), month keys are distinct, the flattened file
content is a permutation of the whole updated known set, and — the known
set being duplicate-free — no date occurs twice anywhere in the file. -/
theorem save_known_dates_format (st : Checker) (dates : List String)
    (hnd : st.known_dates.Nodup) :
    (∀ mv ∈ _load_known_dates (_save_known_dates st dates .success).dates_file,
        (∀ x ∈ mv.2, monthOf x = mv.1) ∧ (mv.2.Pairwise fun a b => strLe a b = true) ∧
          ∀ x ∈ setInsertAll st.known_dates dates, monthOf x = mv.1 → x ∈ mv.2) ∧
      ((_load_known_dates (_save_known_dates st dates .success).dates_file).map
          Prod.fst).Nodup ∧
      (((_load_known_dates (_save_known_dates st dates .success).dates_file).map
          Prod.snd).flatten).Perm (setInsertAll st.known_dates dates) ∧
      (((_load_known_dates (_save_known_dates st dates .success).dates_file).map
          Prod.snd).flatten).Nodup := by
  have hfile : _load_known_dates (_save_known_dates st dates .success).dates_file
      = groupByMonth (setInsertAll st.known_dates dates) := rfl
  rw [hfile]
  have hS : (setInsertAll st.known_dates dates).Nodup := setInsertAll_nodup _ _ hnd
  have hperm := flatten_groupByMonth_perm (setInsertAll st.known_dates dates)
  have hkeys := groupByMonth_keys_nodup (setInsertAll st.known_dates dates)
  refine ⟨?_, hkeys, hperm, hperm.nodup_iff.mpr hS⟩
  intro mv hmv
  obtain ⟨hsound, hsort⟩ := groupByMonth_months (setInsertAll st.known_dates dates) mv hmv
  refine ⟨hsound, hsort, ?_⟩
  intro x hx hmx
  have hxf : x ∈ ((groupByMonth (setInsertAll st.known_dates dates)).map Prod.snd).flatten :=
    hperm.mem_iff.mpr hx
  rcases List.mem_flatten.mp hxf with ⟨bs, hbs, hxbs⟩
  rcases List.mem_map.mp hbs with ⟨mw, hmw, rfl⟩
  have hmw1 : monthOf x = mw.1 :=
    (groupByMonth_months (setInsertAll st.known_dates dates) mw hmw).1 x hxbs
  have hkeq : mv.1 = mw.1 := by rw [← hmx, hmw1]
  have hmveq : mv = mw := entries_eq_of_keys_nodup hkeys hmv hmw hkeq
  rw [hmveq]
  exact hxbs

theorem save_known_dates_format_witness :
    "2025-01-07" ∈ (("2025-01", ["2025-01-06", "2025-01-07"]) : String × List String).2 ∧
      (((_load_known_dates (_save_known_dates ⟨none, none, some (.valid []), none, [],
          ["2025-01-06"]⟩ ["2025-01-07", "2025-02-01"] .success).dates_file).map
          Prod.snd).flatten).Perm
        (setInsertAll ["2025-01-06"] ["2025-01-07", "2025-02-01"]) :=
  ⟨((save_known_dates_format ⟨none, none, some (.valid []), none, [], ["2025-01-06"]⟩
        ["2025-01-07", "2025-02-01"] (by decide)).1
        ("2025-01", ["2025-01-06", "2025-01-07"]) (by decide)).2.2
      "2025-01-07" (by decide) (by decide),
    (save_known_dates_format ⟨none, none, some (.valid []), none, [], ["2025-01-06"]⟩
        ["2025-01-07", "2025-02-01"] (by decide)).2.2.1⟩

/-! ### Date registration across cycles -/

theorem check_availability_registry_fields (fetch : Option Page)
    (target_time planning_date today : String) (st : Checker) :
    (check_availability fetch target_time planning_date today st).2.dates_file
        = st.dates_file ∧
      (check_availability fetch target_time planning_date today st).2.dates_backup
        = st.dates_backup ∧
      (check_availability fetch target_time planning_date today st).2.known_dates
        = st.known_dates := by
  cases fetch with
  | none => exact ⟨rfl, rfl, rfl⟩
  | some page =>
    rw [check_availability_some]
    exact foldl_processKey_other_fields _ _ _ _ _

theorem foldl_timeStep_registry (page : Page) (date today : String) (tts : List String) :
    ∀ a : List Evt × Checker,
      (tts.foldl (timeStep page date today) a).2.dates_file = a.2.dates_file ∧
        (tts.foldl (timeStep page date today) a).2.dates_backup = a.2.dates_backup ∧
        (tts.foldl (timeStep page date today) a).2.known_dates = a.2.known_dates := by
  induction tts with
  | nil => intro a; exact ⟨rfl, rfl, rfl⟩
  | cons tt tts ih =>
    intro a
    rw [List.foldl_cons]
    have h1 := ih (timeStep page date today a tt)
    have h2 := check_availability_registry_fields (some page) tt date today a.2
    exact ⟨h1.1.trans h2.1, h1.2.1.trans h2.2.1, h1.2.2.trans h2.2.2⟩

theorem check_all_dates_single_newdates (d : String) (page : Page) (tts : List String)
    (today : String) (s : Checker) :
    (check_all_dates (some [(d, page)]) tts today s).1.2
      = if d ∈ knownOf (_load_known_dates s.dates_file) then [] else [d] := rfl

theorem check_all_dates_single_dates_file (d : String) (page : Page) (tts : List String)
    (today : String) (s : Checker) :
    (check_all_dates (some [(d, page)]) tts today s).2.dates_file
      = some (.valid (groupByMonth
          (setInsertAll (knownOf (_load_known_dates s.dates_file)) [d]))) := by
  have hknown : (tts.foldl (timeStep page d today)
      ([], { s with known_dates := knownOf (_load_known_dates s.dates_file) })).2.known_dates
      = knownOf (_load_known_dates s.dates_file) :=
    (foldl_timeStep_registry page d today tts _).2.2
  have hstep : (check_all_dates (some [(d, page)]) tts today s).2.dates_file
      = some (.valid (groupByMonth (setInsertAll ((tts.foldl (timeStep page d today)
          ([], { s with known_dates := knownOf (_load_known_dates s.dates_file) })).2.known_dates)
          [d]))) := rfl
  rw [hstep, hknown]

theorem mem_knownOf_groupByMonth (s : List String) (x : String) :
    x ∈ knownOf (groupByMonth s) ↔ x ∈ s := by
  unfold knownOf
  rw [List.mem_dedup]
  exact mem_flatten_groupByMonth s x

/-- C4: a date `d` not previously known is reported as newly added by the
first cycle that sees it and is persisted to the dates file; a second
cycle seeing `{d}` again — the registry having been persisted and
reloaded from the file — reports no newly added dates. -/
theorem register_new_date_twice (d : String) (page : Page) (tts : List String)
    (today : String) (st : Checker)
    (hd : d ∉ knownOf (_load_known_dates st.dates_file)) :
    (check_all_dates (some [(d, page)]) tts today st).1.2 = [d] ∧
      d ∈ knownOf (_load_known_dates
        (check_all_dates (some [(d, page)]) tts today st).2.dates_file) ∧
      (check_all_dates (some [(d, page)]) tts today
        (check_all_dates (some [(d, page)]) tts today st).2).1.2 = [] := by
  have hmem : d ∈ knownOf (_load_known_dates
      (check_all_dates (some [(d, page)]) tts today st).2.dates_file) := by
    rw [check_all_dates_single_dates_file]
    show d ∈ knownOf (groupByMonth
      (setInsertAll (knownOf (_load_known_dates st.dates_file)) [d]))
    rw [mem_knownOf_groupByMonth]
    exact mem_setInsertAll_self _ d
  refine ⟨?_, hmem, ?_⟩
  · rw [check_all_dates_single_newdates, if_neg hd]
  · rw [check_all_dates_single_newdates, if_pos hmem]

theorem register_new_date_twice_witness :
    (check_all_dates (some [("2025-02-10", [])]) ["11H00"] "2025-01-01"
        ⟨none, none, some (.valid []), none, [], []⟩).1.2 = ["2025-02-10"] ∧
      "2025-02-10" ∈ knownOf (_load_known_dates
        (check_all_dates (some [("2025-02-10", [])]) ["11H00"] "2025-01-01"
          ⟨none, none, some (.valid []), none, [], []⟩).2.dates_file) ∧
      (check_all_dates (some [("2025-02-10", [])]) ["11H00"] "2025-01-01"
        (check_all_dates (some [("2025-02-10", [])]) ["11H00"] "2025-01-01"
          ⟨none, none, some (.valid []), none, [], []⟩).2).1.2 = [] :=
  register_new_date_twice "2025-02-10" [] ["11H00"] "2025-01-01"
    ⟨none, none, some (.valid []), none, [], []⟩ (by decide)
